import Mathlib

/-!
# A verification development for the CodeSync offline Python execution simulator

This file gives a shallow embedding, in Lean 4, of the interpreter in
`src/services/pythonExecutor.ts`: the recursive-descent expression evaluator
`evaluateExpression` and the trace builder `getExecutionTrace`, together with
theorems settling the behavioural claims about them.

Modelling conventions:
* JavaScript numbers are modelled as exact rationals (`ℚ`); all arithmetic the
  claims exercise is integral, so no floating-point rounding is observable.
* Strings are manipulated as `List Char`; the JS regular expressions used for
  statement recognition are replaced by equivalent deterministic parsers
  (the character classes involved — word characters, whitespace, literals —
  are disjoint, so the regexes are backtracking-free and the parsers below
  recognise exactly the same language).
* The mutable `scope` object is threaded explicitly; the evaluator is given
  the scope both in and out (mirroring that the TS code could mutate the
  object it receives by reference), and its purity is then a theorem.
* `Number(string)` coercion is modelled on its decimal subset (optional sign,
  digits, optional fraction); the exotic forms (hex, exponent, `Infinity`)
  are not reachable from the claims.
-/

/-- A runtime value of the simulator: a number or a string
(matching the two value forms `evaluateExpression` can produce). -/
inductive Value where
  | num (q : ℚ)
  | str (s : String)
deriving DecidableEq, Repr

/-- The scope: an insertion-ordered mapping from variable names to values,
modelling a plain JS object used as a dictionary. -/
abbrev Scope := List (String × Value)

/-- Property lookup `scope[k]` (first binding wins; keys are unique). -/
def Scope.find? : Scope → String → Option Value
  | [], _ => none
  | (k', v') :: r, k => if k' = k then some v' else Scope.find? r k

/-- Property assignment `scope[k] = v`: update in place if the key exists,
otherwise append (JS objects preserve insertion order). -/
def Scope.set : Scope → String → Value → Scope
  | [], k, v => [(k, v)]
  | (k', v') :: r, k, v =>
      if k' = k then (k, v) :: r else (k', v') :: Scope.set r k v

/-- One entry of the execution trace (interface `ExecutionStep` in
`src/types.ts`).  Optional TS fields become `Option`/`Bool` fields. -/
structure ExecutionStep where
  lineNumber : Nat
  description : String
  «variables» : Scope
  output : Option String := none
  isError : Bool := false
  requiresInput : Bool := false
  inputVariable : Option String := none
deriving DecidableEq, Repr

/-- The result of one interpreter invocation (interface `ExecutorResponse`). -/
structure ExecutorResponse where
  trace : List ExecutionStep
  error : Option String
deriving DecidableEq, Repr

instance {α β : Type} [DecidableEq α] [DecidableEq β] : DecidableEq (Except α β) :=
  fun x y =>
    match x, y with
    | Except.error a, Except.error b =>
        if h : a = b then Decidable.isTrue (by rw [h])
        else Decidable.isFalse (fun hc => by cases hc; exact h rfl)
    | Except.error _, Except.ok _ => Decidable.isFalse (fun hc => by cases hc)
    | Except.ok _, Except.error _ => Decidable.isFalse (fun hc => by cases hc)
    | Except.ok a, Except.ok b =>
        if h : a = b then Decidable.isTrue (by rw [h])
        else Decidable.isFalse (fun hc => by cases hc; exact h rfl)

/-- The single-quote character (written via its code point to keep the
source free of stray quote characters). -/
def sqc : Char := Char.ofNat 39

/-- The single-quote character as a string, for building messages. -/
def squote : String := String.singleton sqc

/-- JS `\w` word characters: ASCII letters, digits, underscore. -/
def isWordChar (c : Char) : Bool := c.isAlpha || c.isDigit || c = '_'

/-- Strip leading and trailing whitespace (JS `String.prototype.trim`). -/
def trimChars (l : List Char) : List Char :=
  ((l.dropWhile Char.isWhitespace).reverse.dropWhile Char.isWhitespace).reverse

/-- Split a character list on newline characters (JS `code.split('\n')`);
always returns at least one (possibly empty) piece. -/
def splitNl : List Char → List (List Char)
  | [] => [[]]
  | c :: r =>
      if c = '\n' then [] :: splitNl r
      else
        match splitNl r with
        | h :: t => (c :: h) :: t
        | [] => [[c]]

/-- The indentation of a line: the length of its leading whitespace run
(JS `line.match(/^\s*/)[0].length`). -/
def indentOf (l : List Char) : Nat := (l.takeWhile Char.isWhitespace).length

/-- Drop an expected literal prefix, returning the remainder on success. -/
def dropLit : List Char → List Char → Option (List Char)
  | [], l => some l
  | _ :: _, [] => none
  | c :: cs, x :: xs => if x = c then dropLit cs xs else none

/-- The digit-string value `d₀…dₖ ↦ Σ dᵢ·10^(k-i)`. -/
def digitsVal (ds : List Char) : Nat :=
  ds.foldl (fun a c => a * 10 + (c.toNat - 48)) 0

/-- Unsigned decimal numeral: `digits`, `digits.digits?` or `.digits`. -/
def jsNumCore (r : List Char) : Option ℚ :=
  let ip := r.takeWhile Char.isDigit
  match r.dropWhile Char.isDigit with
  | [] => if ip = [] then none else some (digitsVal ip)
  | '.' :: fp =>
      if fp.all Char.isDigit && (!ip.isEmpty || !fp.isEmpty) then
        some ((digitsVal ip : ℚ) + (digitsVal fp : ℚ) / (10 ^ fp.length))
      else none
  | _ => none

/-- Optionally signed decimal numeral. -/
def jsNumVal : List Char → Option ℚ
  | '+' :: r => jsNumCore r
  | '-' :: r => (jsNumCore r).map (fun q => -q)
  | r => jsNumCore r

/-- JS `Number(string)` coercion on its decimal subset: trim, the empty
string is `0`, otherwise an optionally signed decimal numeral; `none`
models `NaN`. -/
def jsNumber? (l : List Char) : Option ℚ :=
  let t := trimChars l
  if t = [] then some 0 else jsNumVal t

/-- The fractional decimal digits of `rem/den`, stopping when the expansion
terminates or after the fuel runs out (JS prints the shortest double
representation; every value the claims touch is an integer, where the two
renderings agree exactly). -/
def fracDigits (rem den : Nat) : Nat → List Char
  | 0 => []
  | fuel + 1 =>
      if rem = 0 then []
      else Char.ofNat (48 + rem * 10 / den) :: fracDigits (rem * 10 % den) den fuel

/-- JS `String(number)` for the values reachable here: integers render as
decimal integers, other rationals as a (possibly truncated) decimal. -/
def jsNumToString (q : ℚ) : String :=
  if q.den = 1 then
    (if q.num < 0 then "-" ++ Nat.repr q.num.natAbs else Nat.repr q.num.natAbs)
  else
    (if q.num < 0 then "-" else "") ++ Nat.repr (q.num.natAbs / q.den) ++ "." ++
      String.mk (fracDigits (q.num.natAbs % q.den) q.den 17)

/-- JS `String(value)`. -/
def jsToString : Value → String
  | .num q => jsNumToString q
  | .str s => s

/-- JS `JSON.stringify(value)` for the two value forms (numbers as numerals,
strings quoted; only the quote and backslash escapes can arise here). -/
def jsonStringify : Value → String
  | .num q => jsNumToString q
  | .str s =>
      "\"" ++ String.mk (s.toList.foldr
        (fun c acc => if c = '"' || c = '\\' then '\\' :: c :: acc else c :: acc) []) ++ "\""

/-- JS truthiness of a value (`prompt || default`, `promptExpr ? … : …`). -/
def truthy : Value → Bool
  | .num q => q ≠ 0
  | .str s => s ≠ ""

/-- Is this character one of the two quote characters? -/
def isQuoteChar (c : Char) : Bool := c = '"' || c = sqc

/-- Lowest-precedence operator characters. -/
def isAddSub (c : Char) : Bool := c = '+' || c = '-'

/-- Second-level operator characters. -/
def isMulDiv (c : Char) : Bool := c = '*' || c = '/'

/-- Scan a reversed expression for the first operator hit while toggling the
in-string flag on each quote character; returns the index of the hit in the
un-reversed list (`rest.length` chars precede it). -/
def findOpAux (isOp : Char → Bool) (inStr : Bool) : List Char → Option Nat
  | [] => none
  | c :: rest =>
      let s := if isQuoteChar c then !inStr else inStr
      if !s && isOp c then some rest.length
      else findOpAux isOp s rest

/-- The index of the last (rightmost) operator character of the given class
not enclosed in quotes — the right-to-left scan of `evaluateExpression`. -/
def findOp (isOp : Char → Bool) (l : List Char) : Option Nat :=
  findOpAux isOp false l.reverse

/-- The `NameError` message of `parseFactor`. -/
def nameErr (e : List Char) : String :=
  "NameError: name " ++ squote ++ String.mk e ++ squote ++ " is not defined"

lemma dropWhile_len {α : Type} (p : α → Bool) (l : List α) :
    (l.dropWhile p).length ≤ l.length := by
  induction l with
  | nil => simp
  | cons c r ih =>
      simp only [List.dropWhile]
      split
      · simp only [List.length_cons]; omega
      · simp

lemma trimChars_length_le (l : List Char) : (trimChars l).length ≤ l.length := by
  unfold trimChars
  calc ((l.dropWhile Char.isWhitespace).reverse.dropWhile Char.isWhitespace).reverse.length
      = ((l.dropWhile Char.isWhitespace).reverse.dropWhile Char.isWhitespace).length := by simp
    _ ≤ (l.dropWhile Char.isWhitespace).reverse.length := dropWhile_len _ _
    _ = (l.dropWhile Char.isWhitespace).length := by simp
    _ ≤ l.length := dropWhile_len _ _

lemma findOpAux_lt (isOp : Char → Bool) :
    ∀ (l : List Char) (b : Bool) (i : Nat), findOpAux isOp b l = some i → i < l.length := by
  intro l
  induction l with
  | nil => intro b i h; simp [findOpAux] at h
  | cons c rest ih =>
      intro b i h
      simp only [findOpAux] at h
      by_cases hc : (!(if isQuoteChar c then !b else b) && isOp c) = true
      · rw [if_pos hc] at h
        injection h with h'
        simp [← h']
      · rw [if_neg hc] at h
        have := ih _ i h
        simp only [List.length_cons]
        omega

lemma findOp_lt (isOp : Char → Bool) (l : List Char) (i : Nat) :
    findOp isOp l = some i → i < l.length := by
  intro h
  have := findOpAux_lt isOp l.reverse false i h
  simpa using this

lemma dropLit_length {lit l r : List Char} (h : dropLit lit l = some r) :
    r.length + lit.length = l.length := by
  induction lit generalizing l with
  | nil => simp [dropLit] at h; simp [h]
  | cons c cs ih =>
      cases l with
      | nil => simp [dropLit] at h
      | cons x xs =>
          simp only [dropLit] at h
          split at h
          · have := ih h
            simp only [List.length_cons]
            omega
          · exact absurd h (by simp)

/-- The body of `evaluateExpression` (source lines 16-83), with structural
recursion on an explicit fuel argument (the recursion of the source is on
ever-shorter substrings, so any fuel exceeding the expression length makes
the fuel-exhaustion base case unreachable; see `evalFuel_congr`).  The scope
is threaded in and out, mirroring that the TS function receives the scope
object by mutable reference; its purity is then a theorem.  Right-to-left
scan for `+`/`-`, then for `*`/`/`, then the terminal cases of
`parseFactor` (string literal, numeric literal, variable, `input(…)` call,
`NameError`). -/
def evalFuel : Nat → List Char → Scope → Except String Value × Scope
  | 0, _, σ => (Except.error "RECURSION LIMIT", σ)
  | fuel + 1, expr, σ =>
    let e := trimChars expr
    match findOp isAddSub e with
    | some i =>
        let c := e.getD i ' '
        match evalFuel fuel (e.take i) σ with
        | (Except.error m, σ1) => (Except.error m, σ1)
        | (Except.ok l, σ1) =>
            match evalFuel fuel (e.drop (i + 1)) σ1 with
            | (Except.error m, σ2) => (Except.error m, σ2)
            | (Except.ok r, σ2) =>
                match l, r with
                | Value.num a, Value.num b =>
                    (Except.ok (Value.num (if c = '+' then a + b else a - b)), σ2)
                | _, _ =>
                    (Except.error ("TypeError: unsupported operand type(s) for " ++
                      String.singleton c), σ2)
    | none =>
        match findOp isMulDiv e with
        | some i =>
            let c := e.getD i ' '
            match evalFuel fuel (e.take i) σ with
            | (Except.error m, σ1) => (Except.error m, σ1)
            | (Except.ok l, σ1) =>
                match evalFuel fuel (e.drop (i + 1)) σ1 with
                | (Except.error m, σ2) => (Except.error m, σ2)
                | (Except.ok r, σ2) =>
                    match l, r with
                    | Value.num a, Value.num b =>
                        if c = '/' then
                          if b = 0 then
                            (Except.error "ZeroDivisionError: division by zero", σ2)
                          else (Except.ok (Value.num (a / b)), σ2)
                        else (Except.ok (Value.num (a * b)), σ2)
                    | _, _ =>
                        (Except.error ("TypeError: unsupported operand type(s) for " ++
                          String.singleton c), σ2)
        | none =>
            if (e.head? = some '"' ∧ e.getLast? = some '"') ∨
               (e.head? = some sqc ∧ e.getLast? = some sqc) then
              (Except.ok (Value.str (String.mk ((e.drop 1).dropLast))), σ)
            else
              match jsNumber? e with
              | some q => (Except.ok (Value.num q), σ)
              | none =>
                  match Scope.find? σ (String.mk e) with
                  | some v => (Except.ok v, σ)
                  | none =>
                      match dropLit "input(".toList e with
                      | some m1 =>
                          if m1.getLast? = some ')' then
                            let p := trimChars m1.dropLast
                            if p = [] then (Except.ok (Value.str ""), σ)
                            else evalFuel fuel p σ
                          else (Except.error (nameErr e), σ)
                      | none => (Except.error (nameErr e), σ)

/-- `evaluateExpression` (source lines 16-83): the fueled body run with fuel
strictly greater than the expression length, which the recursion never
exhausts. -/
def evalExprS (expr : List Char) (σ : Scope) : Except String Value × Scope :=
  evalFuel (expr.length + 1) expr σ

/-- Statement recogniser for `name = expr` (regex `^(\w+)\s*=\s*(.*)$`,
source line 195): a word, optional whitespace, `=`, then the rest with
leading whitespace absorbed by the greedy `\s*`. -/
def parseAssign (l : List Char) : Option (List Char × List Char) :=
  let v := l.takeWhile isWordChar
  if v = [] then none
  else
    match (l.dropWhile isWordChar).dropWhile Char.isWhitespace with
    | '=' :: r3 => some (v, r3.dropWhile Char.isWhitespace)
    | _ => none

/-- Statement recogniser for `name = input(…)` (regex
`^(\w+)\s*=\s*input\((.*)\)$`, source line 125): an assignment whose
right-hand side starts with `input(` and ends with `)`; the greedy `(.*)`
captures everything up to the final `)`. -/
def parseInputAssign (l : List Char) : Option (List Char × List Char) :=
  match parseAssign l with
  | none => none
  | some (v, rhs) =>
      match dropLit "input(".toList rhs with
      | none => none
      | some m =>
          if m.getLast? = some ')' then some (v, m.dropLast) else none

/-- Statement recogniser for `for var in range(limit):` (regex
`^for\s+(\w+)\s+in\s+range\((\w+)\):$`, source line 142).  Note the limit
capture is `\w+`: a single word of letters, digits and underscores. -/
def parseFor (l : List Char) : Option (List Char × List Char) :=
  match dropLit "for".toList l with
  | none => none
  | some r1 =>
      let ws1 := r1.takeWhile Char.isWhitespace
      let r2 := r1.dropWhile Char.isWhitespace
      if ws1 = [] then none
      else
        let v := r2.takeWhile isWordChar
        let r3 := r2.dropWhile isWordChar
        if v = [] then none
        else
          let ws2 := r3.takeWhile Char.isWhitespace
          let r4 := r3.dropWhile Char.isWhitespace
          if ws2 = [] then none
          else
            match dropLit "in".toList r4 with
            | none => none
            | some r5 =>
                let ws3 := r5.takeWhile Char.isWhitespace
                let r6 := r5.dropWhile Char.isWhitespace
                if ws3 = [] then none
                else
                  match dropLit "range(".toList r6 with
                  | none => none
                  | some r7 =>
                      let w := r7.takeWhile isWordChar
                      let r8 := r7.dropWhile isWordChar
                      if w = [] then none
                      else if r8 = [')', ':'] then some (v, w) else none

/-- Statement recogniser for `print(…)` (regex `^print\((.*)\)$`, source
line 211): the greedy `(.*)` captures everything between `print(` and the
final `)`. -/
def parsePrint (l : List Char) : Option (List Char) :=
  match dropLit "print(".toList l with
  | none => none
  | some m => if m.getLast? = some ')' then some m.dropLast else none

/-- The four statement shapes plus the unrecognised case, tested in the
priority order of the source (input assignment, for header, plain
assignment, print call). -/
inductive Stmt where
  | inputAssign (v p : List Char)
  | forRange (v w : List Char)
  | assign (v e : List Char)
  | printCall (e : List Char)
  | bad
deriving DecidableEq, Repr

/-- Statement classification in source order (lines 125, 142, 195, 211). -/
def classify (tl : List Char) : Stmt :=
  match parseInputAssign tl with
  | some (v, p) => Stmt.inputAssign v p
  | none =>
      match parseFor tl with
      | some (v, w) => Stmt.forRange v w
      | none =>
          match parseAssign tl with
          | some (v, e) => Stmt.assign v e
          | none =>
              match parsePrint tl with
              | some e => Stmt.printCall e
              | none => Stmt.bad

/-- The loop-body collector (source lines 154-170): starting at index `j`
(the suffix of the line list from `j` is passed explicitly), gather
`(line, index)` pairs of the following lines whose indentation strictly
exceeds the header's; blank lines are skipped without terminating the
block; the first non-blank line at indentation ≤ the header's stops the
walk.  Returns the pairs and the index at which the walk stopped. -/
def collectBody (base : Nat) : List (List Char) → Nat → List (List Char × Nat) × Nat
  | [], j => ([], j)
  | nl :: rest, j =>
      if trimChars nl = [] then collectBody base rest (j + 1)
      else if base < indentOf nl then
        let (ps, j') := collectBody base rest (j + 1)
        ((nl, j) :: ps, j')
      else ([], j)

/-- The scope snapshot carried by the last step of a step list, or the
given scope when the list is empty: the net effect of the source's
`forEach` fold `scope = {...step.variables}` over a sub-trace, and of the
`catch` block's `lastStep ? lastStep.variables : {...scope}`. -/
def lastVars (σ : Scope) (t : List ExecutionStep) : Scope :=
  match t.getLast? with
  | some p => p.«variables»
  | none => σ

/-- The `catch` block of the trace builder (source lines 221-231): pop the
last step pushed by the current invocation and replace it with a terminal
error step at line `ln` carrying the popped step's scope snapshot (or the
current scope when nothing was pushed, which the control flow never
reaches). -/
def failSteps (acc : List ExecutionStep) (σfb : Scope) (ln : Nat) (msg : String) :
    ExecutorResponse :=
  ⟨acc.dropLast ++ [⟨ln, msg, lastVars σfb acc, none, true, false, none⟩], some msg⟩

/-- The line-number remapping applied to each loop-body sub-step
(source line 183): `lineNumber: loopBody[step.lineNumber-1].index + 1`,
with an out-of-range access modelled as default `0` (the invariant
`1 ≤ lineNumber ≤ body length` of every sub-trace keeps the access in
range on every reachable input). -/
def remapStep (bodyIdx : List Nat) (s : ExecutionStep) : ExecutionStep :=
  { s with lineNumber := bodyIdx.getD (s.lineNumber - 1) 0 + 1 }

/-- One loop iteration batch (source lines 172-189), parameterised by the
sub-runner (the recursive `getExecutionTrace` call on the joined body
lines): bind the loop variable to `k`, push the iteration step, run the
body from line 0 on a copy of the scope, remap every sub-step's line
number through `bodyIdx` (the absolute indices of the body lines), fold
each sub-step's scope snapshot back into the running scope, and either
propagate a sub-error or continue with the next iteration.  Returns the
steps pushed, the final scope, and the propagated error, if any. -/
def runIters (sub : Scope → ExecutorResponse) (bodyIdx : List Nat) (loopVar : String)
    (hdrLn : Nat) : Nat → Nat → Scope → List ExecutionStep × Scope × Option String
  | _, 0, σ => ([], σ, none)
  | k, r + 1, σ =>
      let σ1 := Scope.set σ loopVar (Value.num k)
      let iterStep : ExecutionStep :=
        ⟨hdrLn, "Loop iteration " ++ Nat.repr (k + 1) ++ ". Set " ++ squote ++ loopVar ++
          squote ++ " to " ++ Nat.repr k ++ ".", σ1, none, false, false, none⟩
      let subRes := sub σ1
      let steps := subRes.trace.map (remapStep bodyIdx)
      let σ2 := lastVars σ1 subRes.trace
      match subRes.error with
      | some m => (iterStep :: steps, σ2, some m)
      | none =>
          let (rest, σ3, err) := runIters sub bodyIdx loopVar hdrLn (k + 1) r σ2
          (iterStep :: steps ++ rest, σ3, err)

/-- The body of `getExecutionTrace`'s scan loop (source lines 108-232),
with structural recursion on an explicit fuel argument; the recursion is
well-founded (lexicographically on the line-list length and the remaining
line count), and the wrapper always supplies fuel exceeding the recursion
depth, making the fuel-exhaustion base case unreachable (see
`runFuel_congr`).  Steps produced by the current invocation are returned
directly rather than through the mutable `trace` accumulator of the
source; this is equivalent because the only non-append operation, the
`catch` block's pop, always removes a step pushed while processing the
current line (a provisional step is pushed before anything can throw). -/
def runFuel : Nat → List (List Char) → Scope → Nat → ExecutorResponse
  | 0, _, _, _ => ⟨[], none⟩
  | fuel + 1, lines, σ, i =>
      match lines.get? i with
      | none => ⟨[], none⟩
      | some line =>
          let tl := trimChars line
          if tl = [] ∨ tl.head? = some '#' then runFuel fuel lines σ (i + 1)
          else
            let ln := i + 1
            let prov : ExecutionStep :=
              ⟨ln, "Executing line: " ++ String.mk tl, σ, none, false, false, none⟩
            match classify tl with
            | Stmt.inputAssign v p =>
                let pt := trimChars p
                match (if pt = [] then (Except.ok (Value.str ""), σ) else evalExprS pt σ) with
                | (Except.error m, σp) => failSteps [prov] σp ln m
                | (Except.ok pv, σp) =>
                    let desc := if truthy pv then jsToString pv else "Awaiting user input..."
                    let paused := { prov with
                      description := desc
                      requiresInput := true
                      inputVariable := some (String.mk v) }
                    (⟨[paused], none⟩ : ExecutorResponse)
            | Stmt.forRange v w =>
                match evalExprS w σ with
                | (Except.error m, σp) => failSteps [prov] σp ln m
                | (Except.ok val, σp) =>
                    match val with
                    | Value.str _ =>
                        failSteps [prov] σp ln ("TypeError: " ++ squote ++ String.mk w ++
                          squote ++ " does not evaluate to an integer")
                    | Value.num q =>
                        let startStep :=
                          { prov with description :=
                              "Starting a loop that will run " ++ jsNumToString q ++ " times." }
                        let cb := collectBody (indentOf line) (lines.drop (i + 1)) (i + 1)
                        let body := cb.1.map (fun pr => pr.1)
                        let bodyIdx := cb.1.map (fun pr => pr.2)
                        let count := (Rat.ceil q).toNat
                        let it := runIters (fun σ' => runFuel fuel body σ' 0) bodyIdx
                          (String.mk v) ln 0 count σp
                        match it.2.2 with
                        | some m => failSteps (startStep :: it.1) it.2.1 ln m
                        | none =>
                            let r := runFuel fuel lines it.2.1 cb.2
                            ⟨startStep :: it.1 ++ r.trace, r.error⟩
            | Stmt.assign v e =>
                if e = [] then failSteps [prov] σ ln "SyntaxError: invalid syntax"
                else
                  match evalExprS e σ with
                  | (Except.error m, σp) => failSteps [prov] σp ln m
                  | (Except.ok val, σp) =>
                      let σn := Scope.set σp (String.mk v) val
                      let stp := { prov with
                        description := "Assign " ++ jsonStringify val ++ " to " ++ squote ++
                          String.mk v ++ squote
                        «variables» := σn }
                      let r := runFuel fuel lines σn (i + 1)
                      ⟨stp :: r.trace, r.error⟩
            | Stmt.printCall e =>
                match evalExprS e σ with
                | (Except.error m, σp) => failSteps [prov] σp ln m
                | (Except.ok val, σp) =>
                    let stp := { prov with
                      description := "Printing output"
                      output := some (jsToString val) }
                    let r := runFuel fuel lines σp (i + 1)
                    ⟨stp :: r.trace, r.error⟩
            | Stmt.bad => failSteps [prov] σ ln "SyntaxError: invalid or unsupported syntax"

/-- Fuel strictly dominating the recursion depth of `runFuel` from any
start line: the recursion either advances the line cursor within the same
line list or descends into a strictly shorter body list. -/
def sufficientFuel (lines : List (List Char)) : Nat :=
  (lines.length + 1) * (lines.length + 3)

/-- The provided-input coercion and silent assignment performed on
re-entry (source lines 97-106): the raw text becomes a number when it
parses as numeric and is not pure whitespace, otherwise stays a string. -/
def applyProvided (σ : Scope) : Option (String × String) → Scope
  | none => σ
  | some (v, raw) =>
      match jsNumber? raw.toList with
      | some q =>
          if trimChars raw.toList ≠ [] then Scope.set σ v (Value.num q)
          else Scope.set σ v (Value.str raw)
      | none => Scope.set σ v (Value.str raw)

/-- `getExecutionTrace` (source lines 86-235): split the code on newlines,
apply the provided input to a copy of the initial scope, and scan from the
start line. -/
def getExecutionTrace (code : String) (initialScope : Scope) (startLine : Nat)
    (providedInput : Option (String × String)) : ExecutorResponse :=
  let lines := splitNl code.toList
  runFuel (sufficientFuel lines) lines (applyProvided initialScope providedInput) startLine

lemma evalFuel_scope (fuel : Nat) : ∀ (e : List Char) (σ : Scope), (evalFuel fuel e σ).2 = σ := by
  induction fuel with
  | zero => intro e σ; rfl
  | succ n ih =>
      intro e σ
      simp only [evalFuel]
      split
      · rename_i i heq
        have h1 := ih ((trimChars e).take i) σ
        rcases hL : evalFuel n ((trimChars e).take i) σ with ⟨resL, σ1⟩
        rw [hL] at h1; simp only at h1
        cases resL with
        | error m => exact h1
        | ok l =>
            dsimp only
            have h2 := ih ((trimChars e).drop (i+1)) σ1
            rcases hR : evalFuel n ((trimChars e).drop (i+1)) σ1 with ⟨resR, σ2⟩
            rw [hR] at h2; simp only at h2
            cases resR with
            | error m => exact h2.trans h1
            | ok r =>
                dsimp only
                cases l <;> cases r <;> simp only <;> exact h2.trans h1
      · split
        · rename_i i heq2
          have h1 := ih ((trimChars e).take i) σ
          rcases hL : evalFuel n ((trimChars e).take i) σ with ⟨resL, σ1⟩
          rw [hL] at h1; simp only at h1
          cases resL with
          | error m => exact h1
          | ok l =>
              dsimp only
              have h2 := ih ((trimChars e).drop (i+1)) σ1
              rcases hR : evalFuel n ((trimChars e).drop (i+1)) σ1 with ⟨resR, σ2⟩
              rw [hR] at h2; simp only at h2
              cases resR with
              | error m => exact h2.trans h1
              | ok r =>
                  dsimp only
                  cases l <;> cases r <;> simp only
                  · split
                    · split
                      · exact h2.trans h1
                      · exact h2.trans h1
                    · exact h2.trans h1
                  all_goals exact h2.trans h1
        · split
          · rfl
          · split
            · rfl
            · split
              · rfl
              · split
                · split
                  · split
                    · rfl
                    · exact ih _ σ
                  · rfl
                · rfl

/-- At most one of the two terminal flags is set on a step. -/
def stepOkFlags (s : ExecutionStep) : Prop :=
  ¬(s.isError = true ∧ s.requiresInput = true)

/-- The shape of a trace produced by a failing invocation entered with
scope `σ`: a single terminal error step after an error-free prefix, whose
snapshot is the scope reached after the prefix. -/
def errShape (σ : Scope) (tr : List ExecutionStep) (m : String) : Prop :=
  ∃ t e, tr = t ++ [e] ∧ e.isError = true ∧ e.requiresInput = false ∧
    e.description = m ∧ e.output = none ∧ (∀ s ∈ t, s.isError = false) ∧
    e.«variables» = lastVars σ t

/-- The response invariant for an invocation entered with scope `σ` on a
source of `L` lines. -/
def RespInv (L : Nat) (σ : Scope) (r : ExecutorResponse) : Prop :=
  (∀ s ∈ r.trace, stepOkFlags s) ∧
  (∀ s ∈ r.trace, 1 ≤ s.lineNumber ∧ s.lineNumber ≤ L) ∧
  (∀ m, r.error = some m → errShape σ r.trace m) ∧
  (r.error = none → ∀ s ∈ r.trace, s.isError = false)

/-- The part of the invariant a loop-body sub-runner must satisfy. -/
def SubInv (sub : Scope → ExecutorResponse) : Prop :=
  ∀ σ, (∀ s ∈ (sub σ).trace, stepOkFlags s) ∧
       (∀ m, (sub σ).error = some m → errShape σ (sub σ).trace m) ∧
       ((sub σ).error = none → ∀ s ∈ (sub σ).trace, s.isError = false)

lemma lastVars_nil (σ : Scope) : lastVars σ [] = σ := rfl

lemma lastVars_append (σ : Scope) (a b : List ExecutionStep) :
    lastVars σ (a ++ b) = lastVars (lastVars σ a) b := by
  rcases List.eq_nil_or_concat b with hb | ⟨bs, x, hb⟩
  · subst hb; simp [lastVars]
  · subst hb
    rw [List.concat_eq_append, ← List.append_assoc]
    simp [lastVars, List.getLast?_concat]

lemma lastVars_cons (σ : Scope) (x : ExecutionStep) (l : List ExecutionStep) :
    lastVars σ (x :: l) = lastVars x.«variables» l := by
  have := lastVars_append σ [x] l
  simpa [lastVars] using this

lemma lastVars_map_vars (σ : Scope) (t : List ExecutionStep)
    (f : ExecutionStep → ExecutionStep) (h : ∀ s, (f s).«variables» = s.«variables») :
    lastVars σ (t.map f) = lastVars σ t := by
  rcases List.eq_nil_or_concat t with ht | ⟨ts, x, ht⟩
  · subst ht; simp
  · subst ht
    rw [List.concat_eq_append]
    simp [lastVars, List.getLast?_concat, h]

lemma getD_default_or_mem (l : List Nat) (n d : Nat) :
    l.getD n d = d ∨ l.getD n d ∈ l := by
  cases hg : l[n]? with
  | none => left; simp [List.getD, hg]
  | some x =>
      right
      have hx : l.getD n d = x := by simp [List.getD, hg]
      rw [hx]
      exact List.getElem?_mem hg

lemma remap_bounds (bodyIdx : List Nat) (L : Nat) (hIdx : ∀ x ∈ bodyIdx, x < L)
    (hL : 1 ≤ L) (n : Nat) :
    1 ≤ bodyIdx.getD n 0 + 1 ∧ bodyIdx.getD n 0 + 1 ≤ L := by
  refine ⟨by omega, ?_⟩
  rcases getD_default_or_mem bodyIdx n 0 with h | h
  · omega
  · have := hIdx _ h; omega

lemma remapStep_fields (b : List Nat) (s : ExecutionStep) :
    (remapStep b s).isError = s.isError ∧ (remapStep b s).requiresInput = s.requiresInput ∧
    (remapStep b s).«variables» = s.«variables» ∧ (remapStep b s).description = s.description ∧
    (remapStep b s).output = s.output := by
  refine ⟨rfl, rfl, rfl, rfl, rfl⟩

lemma runIters_inv (sub : Scope → ExecutorResponse) (bodyIdx : List Nat) (lv : String)
    (hln L : Nat) (hIdx : ∀ x ∈ bodyIdx, x < L) (hl1 : 1 ≤ hln) (hl2 : hln ≤ L)
    (hsub : SubInv sub) :
    ∀ (r k : Nat) (σ : Scope),
      (∀ s ∈ (runIters sub bodyIdx lv hln k r σ).1, stepOkFlags s) ∧
      (∀ s ∈ (runIters sub bodyIdx lv hln k r σ).1, 1 ≤ s.lineNumber ∧ s.lineNumber ≤ L) ∧
      (∀ m, (runIters sub bodyIdx lv hln k r σ).2.2 = some m →
        errShape σ (runIters sub bodyIdx lv hln k r σ).1 m) ∧
      ((runIters sub bodyIdx lv hln k r σ).2.2 = none →
        (∀ s ∈ (runIters sub bodyIdx lv hln k r σ).1, s.isError = false) ∧
        (runIters sub bodyIdx lv hln k r σ).2.1
          = lastVars σ (runIters sub bodyIdx lv hln k r σ).1) := by
  intro r
  induction r with
  | zero =>
      intro k σ
      refine ⟨?_, ?_, ?_, ?_⟩ <;> simp [runIters, lastVars]
  | succ n ih =>
      intro k σ
      obtain ⟨hfl, herr, hok⟩ := hsub (Scope.set σ lv (Value.num k))
      rcases hs : sub (Scope.set σ lv (Value.num k)) with ⟨subTr, subErr⟩
      rw [hs] at hfl herr hok
      simp only at hfl herr hok
      simp only [runIters, hs]
      cases subErr with
      | some m =>
          obtain ⟨t, e, htr, he1, he2, he3, he4, ht5, he6⟩ := herr m rfl
          subst htr
          refine ⟨?_, ?_, ?_, ?_⟩
          · intro s hsmem
            simp only [List.mem_cons, List.mem_map] at hsmem
            rcases hsmem with rfl | ⟨s0, hs0, rfl⟩
            · simp [stepOkFlags]
            · have := hfl s0 hs0
              simpa [stepOkFlags, remapStep] using this
          · intro s hsmem
            simp only [List.mem_cons, List.mem_map] at hsmem
            rcases hsmem with rfl | ⟨s0, hs0, rfl⟩
            · simp; omega
            · simpa [remapStep] using
                remap_bounds bodyIdx L hIdx (le_trans hl1 hl2) (s0.lineNumber - 1)
          · intro m' hm'
            simp only at hm'
            cases hm'
            refine ⟨(⟨hln, "Loop iteration " ++ Nat.repr (k + 1) ++ ". Set " ++ squote ++ lv ++
                squote ++ " to " ++ Nat.repr k ++ ".", Scope.set σ lv (Value.num k), none,
                false, false, none⟩ : ExecutionStep) :: t.map (remapStep bodyIdx),
              remapStep bodyIdx e, ?_, ?_, ?_, ?_, ?_, ?_, ?_⟩
            · simp [List.map_append]
            · simpa [remapStep] using he1
            · simpa [remapStep] using he2
            · simpa [remapStep] using he3
            · simpa [remapStep] using he4
            · intro s hsmem
              simp only [List.mem_cons, List.mem_map] at hsmem
              rcases hsmem with rfl | ⟨s0, hs0, rfl⟩
              · rfl
              · simpa [remapStep] using ht5 s0 hs0
            · rw [lastVars_cons]
              simp only
              rw [lastVars_map_vars _ t (remapStep bodyIdx) (fun s => rfl)]
              simpa [remapStep] using he6
          · intro hcon; simp at hcon
      | none =>
          have hsteps_ok : ∀ s ∈ subTr, s.isError = false := hok rfl
          rcases hrec : runIters sub bodyIdx lv hln (k + 1) n
              (lastVars (Scope.set σ lv (Value.num k)) subTr) with ⟨rest, σ3, err⟩
          have IH := ih (k + 1) (lastVars (Scope.set σ lv (Value.num k)) subTr)
          rw [hrec] at IH
          obtain ⟨ih1, ih2, ih3, ih4⟩ := IH
          simp only at ih1 ih2 ih3 ih4
          simp only [hrec]
          refine ⟨?_, ?_, ?_, ?_⟩
          · intro s hsmem
            simp only [List.mem_cons, List.mem_append, List.mem_map] at hsmem
            rcases hsmem with (rfl | ⟨s0, hs0, rfl⟩) | h
            · simp [stepOkFlags]
            · have := hfl s0 hs0; simpa [stepOkFlags, remapStep] using this
            · exact ih1 s h
          · intro s hsmem
            simp only [List.mem_cons, List.mem_append, List.mem_map] at hsmem
            rcases hsmem with (rfl | ⟨s0, hs0, rfl⟩) | h
            · simp; omega
            · simpa [remapStep] using
                remap_bounds bodyIdx L hIdx (le_trans hl1 hl2) (s0.lineNumber - 1)
            · exact ih2 s h
          · intro m' hm'
            try simp only at hm'
            obtain ⟨d, e, hd, he1, he2, he3, he4, hd5, he6⟩ := ih3 m' hm'
            subst hd
            refine ⟨(⟨hln, "Loop iteration " ++ Nat.repr (k + 1) ++ ". Set " ++ squote ++ lv ++
                squote ++ " to " ++ Nat.repr k ++ ".", Scope.set σ lv (Value.num k), none,
                false, false, none⟩ : ExecutionStep) ::
                subTr.map (remapStep bodyIdx) ++ d, e, ?_, he1, he2, he3, he4, ?_, ?_⟩
            · simp
            · intro s hsmem
              simp only [List.mem_cons, List.mem_append, List.mem_map] at hsmem
              rcases hsmem with (rfl | ⟨s0, hs0, rfl⟩) | h
              · rfl
              · simpa [remapStep] using hsteps_ok s0 hs0
              · exact hd5 s h
            · rw [he6, lastVars_append, lastVars_cons]
              simp only
              rw [lastVars_map_vars _ subTr (remapStep bodyIdx) (fun s => rfl)]
          · intro herrnone
            try simp only at herrnone
            obtain ⟨hall, hσ3⟩ := ih4 herrnone
            constructor
            · intro s hsmem
              simp only [List.mem_cons, List.mem_append, List.mem_map] at hsmem
              rcases hsmem with (rfl | ⟨s0, hs0, rfl⟩) | h
              · rfl
              · simpa [remapStep] using hsteps_ok s0 hs0
              · exact hall s h
            · rw [hσ3, lastVars_append, lastVars_cons]
              simp only
              rw [lastVars_map_vars _ subTr (remapStep bodyIdx) (fun s => rfl)]

lemma evalExprS_scope (x : List Char) (σ : Scope) : (evalExprS x σ).2 = σ :=
  evalFuel_scope (x.length + 1) x σ

lemma stepOkFlags_of_noErr {s : ExecutionStep} (h : s.isError = false) : stepOkFlags s := by
  intro hc
  rw [h] at hc
  exact absurd hc.1 (by simp)

lemma respInv_prepend (L : Nat) (σ σn : Scope) (pre : List ExecutionStep)
    (r : ExecutorResponse)
    (hflags : ∀ s ∈ pre, stepOkFlags s)
    (herr0 : ∀ s ∈ pre, s.isError = false)
    (hbounds : ∀ s ∈ pre, 1 ≤ s.lineNumber ∧ s.lineNumber ≤ L)
    (hvars : lastVars σ pre = σn)
    (hr : RespInv L σn r) :
    RespInv L σ ⟨pre ++ r.trace, r.error⟩ := by
  obtain ⟨hr1, hr2, hr3, hr4⟩ := hr
  refine ⟨?_, ?_, ?_, ?_⟩
  · intro s hs
    rcases List.mem_append.mp hs with h | h
    · exact hflags s h
    · exact hr1 s h
  · intro s hs
    rcases List.mem_append.mp hs with h | h
    · exact hbounds s h
    · exact hr2 s h
  · intro m hm
    simp only at hm
    obtain ⟨t, e, ht, he1, he2, he3, he4, ht5, he6⟩ := hr3 m hm
    refine ⟨pre ++ t, e, ?_, he1, he2, he3, he4, ?_, ?_⟩
    · simp only [ht]; rw [List.append_assoc]
    · intro s hs
      rcases List.mem_append.mp hs with h | h
      · exact herr0 s h
      · exact ht5 s h
    · rw [he6, lastVars_append, hvars]
  · intro hm s hs
    simp only at hm
    rcases List.mem_append.mp hs with h | h
    · exact herr0 s h
    · exact hr4 hm s h

lemma failSteps_concat_inv (L : Nat) (σ σfb : Scope) (pre : List ExecutionStep)
    (e' : ExecutionStep) (ln : Nat) (msg : String)
    (hflags : ∀ s ∈ pre, s.isError = false)
    (hbounds : ∀ s ∈ pre, 1 ≤ s.lineNumber ∧ s.lineNumber ≤ L)
    (hln : 1 ≤ ln ∧ ln ≤ L)
    (hvars : e'.«variables» = lastVars σ pre) :
    RespInv L σ (failSteps (pre ++ [e']) σfb ln msg) := by
  have hdrop : (pre ++ [e']).dropLast = pre := List.dropLast_concat ..
  have hlast : lastVars σfb (pre ++ [e']) = e'.«variables» := by
    simp [lastVars, List.getLast?_concat]
  refine ⟨?_, ?_, ?_, ?_⟩
  · intro s hs
    simp only [failSteps, hdrop, hlast] at hs
    rcases List.mem_append.mp hs with h | h
    · exact stepOkFlags_of_noErr (hflags s h)
    · rcases List.mem_singleton.mp h with rfl
      intro hc; exact absurd hc.2 (by simp)
  · intro s hs
    simp only [failSteps, hdrop, hlast] at hs
    rcases List.mem_append.mp hs with h | h
    · exact hbounds s h
    · rcases List.mem_singleton.mp h with rfl
      simpa using hln
  · intro m hm
    simp only [failSteps] at hm
    cases hm
    refine ⟨pre, ⟨ln, msg, lastVars σfb (pre ++ [e']), none, true, false, none⟩, ?_, rfl, rfl,
      rfl, rfl, hflags, ?_⟩
    · simp [failSteps, hdrop]
    · simp only [hlast, hvars]
  · intro hm
    simp only [failSteps] at hm
    cases hm

lemma collectBody_idx (base : Nat) :
    ∀ (suf : List (List Char)) (j : Nat) (pr : List Char × Nat),
      pr ∈ (collectBody base suf j).1 → j ≤ pr.2 ∧ pr.2 < j + suf.length := by
  intro suf
  induction suf with
  | nil => intro j pr h; simp [collectBody] at h
  | cons nl rest ih =>
      intro j pr h
      simp only [collectBody] at h
      split at h
      · have := ih (j + 1) pr h
        simp only [List.length_cons]
        omega
      · split at h
        · rcases List.mem_cons.mp h with rfl | h2
          · simp
          · have := ih (j + 1) pr h2
            simp only [List.length_cons]
            omega
        · simp at h

lemma runFuel_inv : ∀ (fuel : Nat) (lines : List (List Char)) (σ : Scope) (i : Nat),
    RespInv lines.length σ (runFuel fuel lines σ i) := by
  intro fuel
  induction fuel with
  | zero =>
      intro lines σ i
      refine ⟨?_, ?_, ?_, ?_⟩ <;> simp [runFuel]
  | succ n ih =>
      intro lines σ i
      cases hg : lines.get? i with
      | none =>
          simp only [runFuel, hg]
          refine ⟨?_, ?_, ?_, ?_⟩ <;> simp
      | some line =>
          have hi : i < lines.length := by
            by_contra hcon
            rw [List.get?_eq_none.mpr (by omega)] at hg
            cases hg
          simp only [runFuel, hg]
          by_cases hbl : trimChars line = [] ∨ (trimChars line).head? = some '#'
          · rw [if_pos hbl]
            exact ih lines σ (i + 1)
          · rw [if_neg hbl]
            cases hcl : classify (trimChars line) with
            | inputAssign v p =>
                simp only
                by_cases hpt : trimChars p = []
                · rw [if_pos hpt]
                  simp only
                  refine ⟨?_, ?_, ?_, ?_⟩
                  · intro s hs
                    rcases List.mem_singleton.mp hs with rfl
                    intro hc; exact absurd hc.1 (by simp)
                  · intro s hs
                    rcases List.mem_singleton.mp hs with rfl
                    simp; omega
                  · intro m hm; cases hm
                  · intro _ s hs
                    rcases List.mem_singleton.mp hs with rfl
                    rfl
                · rw [if_neg hpt]
                  have hsc := evalExprS_scope (trimChars p) σ
                  rcases hev : evalExprS (trimChars p) σ with ⟨res, σp⟩
                  rw [hev] at hsc
                  simp only at hsc
                  rw [hsc]
                  cases res with
                  | error m =>
                      exact failSteps_concat_inv _ σ σ []
                        ⟨i + 1, "Executing line: " ++ String.mk (trimChars line), σ, none,
                          false, false, none⟩ (i + 1) m (by simp) (by simp) ⟨by omega, hi⟩ rfl
                  | ok pv =>
                      refine ⟨?_, ?_, ?_, ?_⟩
                      · intro s hs
                        rcases List.mem_singleton.mp hs with rfl
                        intro hc; exact absurd hc.1 (by simp)
                      · intro s hs
                        rcases List.mem_singleton.mp hs with rfl
                        simp; omega
                      · intro m hm; cases hm
                      · intro _ s hs
                        rcases List.mem_singleton.mp hs with rfl
                        rfl
            | assign v e =>
                simp only
                by_cases hemp : e = []
                · rw [if_pos hemp]
                  exact failSteps_concat_inv _ σ σ []
                    ⟨i + 1, "Executing line: " ++ String.mk (trimChars line), σ, none,
                      false, false, none⟩ (i + 1) _ (by simp) (by simp) ⟨by omega, hi⟩ rfl
                · rw [if_neg hemp]
                  have hsc := evalExprS_scope e σ
                  rcases hev : evalExprS e σ with ⟨res, σp⟩
                  rw [hev] at hsc
                  simp only at hsc
                  rw [hsc]
                  cases res with
                  | error m =>
                      exact failSteps_concat_inv _ σ σ []
                        ⟨i + 1, "Executing line: " ++ String.mk (trimChars line), σ, none,
                          false, false, none⟩ (i + 1) m (by simp) (by simp) ⟨by omega, hi⟩ rfl
                  | ok val =>
                      have := respInv_prepend lines.length σ
                        (Scope.set σ (String.mk v) val)
                        [{ (⟨i + 1, "Executing line: " ++ String.mk (trimChars line), σ, none,
                            false, false, none⟩ : ExecutionStep) with
                          description := "Assign " ++ jsonStringify val ++ " to " ++ squote ++
                            String.mk v ++ squote
                          «variables» := Scope.set σ (String.mk v) val }]
                        (runFuel n lines (Scope.set σ (String.mk v) val) (i + 1))
                        (by intro s hs; rcases List.mem_singleton.mp hs with rfl
                            intro hc; exact absurd hc.1 (by simp))
                        (by intro s hs; rcases List.mem_singleton.mp hs with rfl; rfl)
                        (by intro s hs; rcases List.mem_singleton.mp hs with rfl
                            simp; omega)
                        (by simp [lastVars])
                        (ih lines (Scope.set σ (String.mk v) val) (i + 1))
                      simpa using this
            | printCall e =>
                simp only
                have hsc := evalExprS_scope e σ
                rcases hev : evalExprS e σ with ⟨res, σp⟩
                rw [hev] at hsc
                simp only at hsc
                rw [hsc]
                cases res with
                | error m =>
                    exact failSteps_concat_inv _ σ σ []
                      ⟨i + 1, "Executing line: " ++ String.mk (trimChars line), σ, none,
                        false, false, none⟩ (i + 1) m (by simp) (by simp) ⟨by omega, hi⟩ rfl
                | ok val =>
                    have := respInv_prepend lines.length σ σ
                      [{ (⟨i + 1, "Executing line: " ++ String.mk (trimChars line), σ, none,
                          false, false, none⟩ : ExecutionStep) with
                        description := "Printing output"
                        output := some (jsToString val) }]
                      (runFuel n lines σ (i + 1))
                      (by intro s hs; rcases List.mem_singleton.mp hs with rfl
                          intro hc; exact absurd hc.1 (by simp))
                      (by intro s hs; rcases List.mem_singleton.mp hs with rfl; rfl)
                      (by intro s hs; rcases List.mem_singleton.mp hs with rfl
                          simp; omega)
                      (by simp [lastVars])
                      (ih lines σ (i + 1))
                    simpa using this
            | bad =>
                simp only
                exact failSteps_concat_inv _ σ σ []
                  ⟨i + 1, "Executing line: " ++ String.mk (trimChars line), σ, none,
                    false, false, none⟩ (i + 1) _ (by simp) (by simp) ⟨by omega, hi⟩ rfl
            | forRange v w =>
                simp only
                have hsc := evalExprS_scope w σ
                rcases hev : evalExprS w σ with ⟨res, σp⟩
                rw [hev] at hsc
                simp only at hsc
                rw [hsc]
                cases res with
                | error m =>
                    exact failSteps_concat_inv _ σ σ []
                      ⟨i + 1, "Executing line: " ++ String.mk (trimChars line), σ, none,
                        false, false, none⟩ (i + 1) m (by simp) (by simp) ⟨by omega, hi⟩ rfl
                | ok val =>
                    cases val with
                    | str s0 =>
                        exact failSteps_concat_inv _ σ σ []
                          ⟨i + 1, "Executing line: " ++ String.mk (trimChars line), σ, none,
                            false, false, none⟩ (i + 1) _ (by simp) (by simp) ⟨by omega, hi⟩ rfl
                    | num q =>
                        dsimp only
                        have hIdx : ∀ x ∈ (collectBody (indentOf line) (lines.drop (i + 1))
                            (i + 1)).1.map (fun pr => pr.2), x < lines.length := by
                          intro x hx
                          rcases List.mem_map.mp hx with ⟨pr, hpr, rfl⟩
                          have := collectBody_idx (indentOf line) (lines.drop (i + 1)) (i + 1)
                            pr hpr
                          rw [List.length_drop] at this
                          omega
                        have hsub : SubInv (fun σ' => runFuel n
                            ((collectBody (indentOf line) (lines.drop (i + 1)) (i + 1)).1.map
                              (fun pr => pr.1)) σ' 0) := by
                          intro σ'
                          obtain ⟨h1, h2, h3, h4⟩ := ih _ σ' 0
                          exact ⟨h1, h3, h4⟩
                        have RI := runIters_inv _ _ (String.mk v) (i + 1) lines.length hIdx
                          (by omega) hi hsub ((Rat.ceil q).toNat) 0 σ
                        rcases hit : runIters (fun σ' => runFuel n
                            ((collectBody (indentOf line) (lines.drop (i + 1)) (i + 1)).1.map
                              (fun pr => pr.1)) σ' 0)
                            ((collectBody (indentOf line) (lines.drop (i + 1)) (i + 1)).1.map
                              (fun pr => pr.2)) (String.mk v) (i + 1) 0 ((Rat.ceil q).toNat) σ
                          with ⟨delta, σ2, errOpt⟩
                        rw [hit] at RI
                        obtain ⟨ri1, ri2, ri3, ri4⟩ := RI
                        simp only at ri1 ri2 ri3 ri4
                        cases errOpt with
                        | some m =>
                            obtain ⟨d, e', hd, he1, he2, he3, he4, hd5, he6⟩ := ri3 m rfl
                            subst hd
                            dsimp only
                            rw [← List.cons_append]
                            refine failSteps_concat_inv _ σ σ2 _ e' (i + 1) m ?_ ?_
                              ⟨by omega, hi⟩ ?_
                            · intro s hs
                              rcases List.mem_cons.mp hs with rfl | h
                              · rfl
                              · exact hd5 s h
                            · intro s hs
                              rcases List.mem_cons.mp hs with rfl | h
                              · simp; omega
                              · exact ri2 s (List.mem_append.mpr (Or.inl h))
                            · rw [he6, lastVars_cons]
                        | none =>
                            obtain ⟨hall, hσ2⟩ := ri4 rfl
                            dsimp only
                            have := respInv_prepend lines.length σ σ2
                              (({ (⟨i + 1, "Executing line: " ++
                                String.mk (trimChars line), σ, none, false, false, none⟩ :
                                ExecutionStep) with
                                description := "Starting a loop that will run " ++
                                  jsNumToString q ++ " times." } : ExecutionStep) :: delta)
                              (runFuel n lines σ2
                                (collectBody (indentOf line) (lines.drop (i + 1)) (i + 1)).2)
                              (by intro s hs
                                  rcases List.mem_cons.mp hs with rfl | h
                                  · intro hc; exact absurd hc.1 (by simp)
                                  · exact ri1 s h)
                              (by intro s hs
                                  rcases List.mem_cons.mp hs with rfl | h
                                  · rfl
                                  · exact hall s h)
                              (by intro s hs
                                  rcases List.mem_cons.mp hs with rfl | h
                                  · simp; omega
                                  · exact ri2 s h)
                              (by rw [lastVars_cons]; simp only; exact hσ2.symm)
                              (ih lines σ2
                                (collectBody (indentOf line) (lines.drop (i + 1)) (i + 1)).2)
                            simpa using this

/-- C1: Input round-trip with numeric coercion: for the source
`age = input("Age: ")\nprint(age)`, invoking `getExecutionTrace` from line 0
with empty scope returns a trace of exactly one step having
`requiresInput = true`, `inputVariable = "age"` and a null error; a second
invocation with provided input `("age", "30")` and the pausing step's line
(1) as start line returns, with no error, a trace whose single step is the
print step with output string `"30"` (the raw text coerced to the number 30
in scope), with no extra trace entry for the assignment. -/
theorem c1_input_round_trip :
    getExecutionTrace "age = input(\"Age: \")\nprint(age)" [] 0 none
      = ⟨[⟨1, "Age: ", [], none, false, true, some "age"⟩], none⟩ ∧
    getExecutionTrace "age = input(\"Age: \")\nprint(age)" [] 1 (some ("age", "30"))
      = ⟨[⟨2, "Printing output", [("age", Value.num 30)], some "30", false, false, none⟩],
          none⟩ :=
  ⟨by with_unfolding_all rfl, by with_unfolding_all rfl⟩

/-- C5: Operator precedence and left-associativity: `"3 + 4 * 2"` on the
empty scope evaluates to 11 (multiplication binds tighter), and
`"10 - 3 - 2"` evaluates to 5 (same-precedence chains associate left in
spite of the rightmost-first scan). -/
theorem c5_precedence_left_assoc :
    (evalExprS "3 + 4 * 2".toList []).1 = Except.ok (Value.num 11) ∧
    (evalExprS "10 - 3 - 2".toList []).1 = Except.ok (Value.num 5) :=
  ⟨by with_unfolding_all rfl, by with_unfolding_all rfl⟩

/-- C9: Evaluator purity: for every expression string and every scope, the
evaluator returns the scope it was given unchanged, whether it succeeds or
fails. -/
theorem c9_evaluator_purity (expr : List Char) (σ : Scope) :
    (evalExprS expr σ).2 = σ :=
  evalExprS_scope expr σ

/-- C2 counterexample: for the source `for i in range(2):\n  x = input()`,
the invocation from line 0 with empty scope returns with no error a
5-step trace in which the step at index 2 has `requiresInput = true` but is
not the last step — refuting the claim that a step with `requiresInput`
is necessarily the last step of the returned trace. -/
theorem c2_counterexample :
    (getExecutionTrace "for i in range(2):\n  x = input()" [] 0 none).error = none ∧
    ∃ s ∈ (getExecutionTrace "for i in range(2):\n  x = input()" [] 0 none).trace.dropLast,
      s.requiresInput = true := by
  have h : (getExecutionTrace "for i in range(2):\n  x = input()" [] 0 none).trace.dropLast
      = [⟨1, "Starting a loop that will run 2 times.", [], none, false, false, none⟩,
         ⟨1, "Loop iteration 1. Set " ++ squote ++ "i" ++ squote ++ " to 0.",
           [("i", Value.num 0)], none, false, false, none⟩,
         ⟨2, "Awaiting user input...", [("i", Value.num 0)], none, false, true, some "x"⟩,
         ⟨1, "Loop iteration 2. Set " ++ squote ++ "i" ++ squote ++ " to 1.",
           [("i", Value.num 1)], none, false, false, none⟩] := by
    with_unfolding_all rfl
  refine ⟨by with_unfolding_all rfl, ?_⟩
  rw [h]
  exact ⟨⟨2, "Awaiting user input...", [("i", Value.num 0)], none, false, true, some "x"⟩,
    List.mem_cons_of_mem _ (List.mem_cons_of_mem _ (List.mem_cons_self _ _)), rfl⟩

/-- C2 (amended): for every source text, initial scope, start line and
optional provided input, every step of the returned trace has at most one
of `isError` and `requiresInput` set, and every step with `isError` true is
the last step.  (A step with `requiresInput` true is the last step of its
own sub-invocation but, when an input statement occurs inside a loop body,
the outer invocation appends the paused sub-trace and keeps iterating, so
such a step need not be last overall — see the counterexample.) -/
theorem c2_amended (code : String) (σ : Scope) (start : Nat)
    (pi : Option (String × String)) :
    (∀ s ∈ (getExecutionTrace code σ start pi).trace,
      ¬(s.isError = true ∧ s.requiresInput = true)) ∧
    (∀ s ∈ (getExecutionTrace code σ start pi).trace.dropLast, s.isError = false) := by
  obtain ⟨h1, h2, h3, h4⟩ := runFuel_inv (sufficientFuel (splitNl code.toList))
    (splitNl code.toList) (applyProvided σ pi) start
  refine ⟨fun s hs => h1 s hs, ?_⟩
  intro s hs
  cases herr : (getExecutionTrace code σ start pi).error with
  | none =>
      exact h4 herr s (List.dropLast_sublist _ |>.mem hs)
  | some m =>
      obtain ⟨t, e, ht, he1, he2, he3, he4, ht5, he6⟩ := h3 m herr
      have hdl : (getExecutionTrace code σ start pi).trace.dropLast = t := by
        rw [show (getExecutionTrace code σ start pi).trace
              = (runFuel (sufficientFuel (splitNl code.toList)) (splitNl code.toList)
                  (applyProvided σ pi) start).trace from rfl, ht]
        exact List.dropLast_concat ..
      rw [hdl] at hs
      exact ht5 s hs

/-- C3: Error string iff error step: for every invocation, the `error`
field of the returned response is non-null if and only if the returned
trace is non-empty and its last step has `isError` true (so both a
pause-for-input return and a run-to-completion return carry a null
error). -/
theorem c3_error_iff_last_error (code : String) (σ : Scope) (start : Nat)
    (pi : Option (String × String)) :
    (getExecutionTrace code σ start pi).error ≠ none ↔
      ∃ e, (getExecutionTrace code σ start pi).trace.getLast? = some e ∧
        e.isError = true := by
  obtain ⟨h1, h2, h3, h4⟩ := runFuel_inv (sufficientFuel (splitNl code.toList))
    (splitNl code.toList) (applyProvided σ pi) start
  constructor
  · intro hne
    cases herr : (getExecutionTrace code σ start pi).error with
    | none => exact absurd herr hne
    | some m =>
        obtain ⟨t, e, ht, he1, _, _, _, _, _⟩ := h3 m herr
        refine ⟨e, ?_, he1⟩
        rw [show (getExecutionTrace code σ start pi).trace
              = (runFuel (sufficientFuel (splitNl code.toList)) (splitNl code.toList)
                  (applyProvided σ pi) start).trace from rfl, ht]
        exact List.getLast?_concat ..
  · rintro ⟨e, hlast, herr⟩
    intro hnone
    have hmem : e ∈ (getExecutionTrace code σ start pi).trace :=
      List.mem_of_mem_getLast? hlast
    have := h4 hnone e hmem
    rw [this] at herr
    cases herr

/-- C4: Failure atomicity: whenever an invocation returns a non-null error,
the trace consists of an error-free prefix followed by exactly one terminal
error step (so execution stopped at the failing line and no later line or
loop iteration contributed steps); the error step carries the error string
as its description, no flags besides `isError`, and a scope snapshot equal
to the scope reached just before the failing statement (the entry scope —
after the provided-input assignment — when the failing statement is the
first one executed, and the previous step's post-state snapshot
otherwise). -/
theorem c4_failure_atomicity (code : String) (σ : Scope) (start : Nat)
    (pi : Option (String × String)) (m : String)
    (h : (getExecutionTrace code σ start pi).error = some m) :
    ∃ t e, (getExecutionTrace code σ start pi).trace = t ++ [e] ∧
      e.isError = true ∧ e.requiresInput = false ∧ e.description = m ∧
      e.output = none ∧ (∀ s ∈ t, s.isError = false) ∧
      e.«variables» = lastVars (applyProvided σ pi) t := by
  obtain ⟨h1, h2, h3, h4⟩ := runFuel_inv (sufficientFuel (splitNl code.toList))
    (splitNl code.toList) (applyProvided σ pi) start
  exact h3 m h

/-- C4 witness: the source `x = 5 / 0` fails with a `ZeroDivisionError`,
and `c4_failure_atomicity` applies at it. -/
theorem c4_witness :
    ∃ t e, (getExecutionTrace "x = 5 / 0" [] 0 none).trace = t ++ [e] ∧
      e.isError = true ∧ e.requiresInput = false ∧
      e.description = "ZeroDivisionError: division by zero" ∧
      e.output = none ∧ (∀ s ∈ t, s.isError = false) ∧
      e.«variables» = lastVars (applyProvided [] none) t :=
  c4_failure_atomicity "x = 5 / 0" [] 0 none "ZeroDivisionError: division by zero"
    (by with_unfolding_all rfl)

/-- C6 counterexample: the loop-fidelity source produces 8 steps, not the
7 the claim states (the claim omits the trace entry for the initial
assignment `count = 0`). -/
theorem c6_counterexample :
    (getExecutionTrace "count = 0\nfor i in range(3):\n  count = count + 1"
      [] 0 none).trace.length ≠ 7 := by
  have h : (getExecutionTrace "count = 0\nfor i in range(3):\n  count = count + 1"
      [] 0 none).trace.length = 8 := by with_unfolding_all rfl
  omega

/-- C6 (amended): invoking `getExecutionTrace` from line 0 with empty scope
on `count = 0\nfor i in range(3):\n  count = count + 1` returns, with no
error, a trace of exactly 8 steps — one assignment step for `count = 0`,
one loop-start step, and three iteration-start steps each followed by one
body-assignment step — whose final step's snapshot maps `count` to 3 and
`i` to 2. -/
theorem c6_amended :
    getExecutionTrace "count = 0\nfor i in range(3):\n  count = count + 1" [] 0 none
      = ⟨[⟨1, "Assign 0 to " ++ squote ++ "count" ++ squote,
            [("count", Value.num 0)], none, false, false, none⟩,
          ⟨2, "Starting a loop that will run 3 times.",
            [("count", Value.num 0)], none, false, false, none⟩,
          ⟨2, "Loop iteration 1. Set " ++ squote ++ "i" ++ squote ++ " to 0.",
            [("count", Value.num 0), ("i", Value.num 0)], none, false, false, none⟩,
          ⟨3, "Assign 1 to " ++ squote ++ "count" ++ squote,
            [("count", Value.num 1), ("i", Value.num 0)], none, false, false, none⟩,
          ⟨2, "Loop iteration 2. Set " ++ squote ++ "i" ++ squote ++ " to 1.",
            [("count", Value.num 1), ("i", Value.num 1)], none, false, false, none⟩,
          ⟨3, "Assign 2 to " ++ squote ++ "count" ++ squote,
            [("count", Value.num 2), ("i", Value.num 1)], none, false, false, none⟩,
          ⟨2, "Loop iteration 3. Set " ++ squote ++ "i" ++ squote ++ " to 2.",
            [("count", Value.num 2), ("i", Value.num 2)], none, false, false, none⟩,
          ⟨3, "Assign 3 to " ++ squote ++ "count" ++ squote,
            [("count", Value.num 3), ("i", Value.num 2)], none, false, false, none⟩],
        none⟩ := by
  with_unfolding_all rfl

/-- C7 counterexample: on `for i in range(1):\n  x = y` the failing
statement is `x = y` on source line 2, yet the terminal error step of the
returned trace carries `lineNumber = 1` — the loop header's line — because
the `catch` block rebuilds the error step with the header's line number
after popping the remapped sub-step.  This refutes the claim that every
step, including an error step raised inside a loop body, carries the line
number of its corresponding source line. -/
theorem c7_counterexample :
    ∃ e, (getExecutionTrace "for i in range(1):\n  x = y" [] 0 none).trace.getLast?
        = some e ∧ e.isError = true ∧ e.lineNumber = 1 ∧ e.lineNumber ≠ 2 := by
  have h : (getExecutionTrace "for i in range(1):\n  x = y" [] 0 none).trace.getLast?
      = some ⟨1, "NameError: name " ++ squote ++ "y" ++ squote ++ " is not defined",
          [("i", Value.num 0)], none, true, false, none⟩ := by
    with_unfolding_all rfl
  exact ⟨_, h, rfl, rfl, by decide⟩

/-- C7 (amended): every step of every returned trace carries a 1-based
line number within the caller's source (between 1 and the number of lines
of the split source text); steps produced inside a loop body by the
recursive sub-invocation are remapped from the body's local numbering to
absolute outer line numbers — as the concrete two-line-body loop shows —
but a terminal error step escaping a loop body is reported at the loop
header's line, not the failing body line (see the counterexample). -/
theorem c7_amended :
    (∀ (code : String) (σ : Scope) (start : Nat) (pi : Option (String × String)),
      ∀ s ∈ (getExecutionTrace code σ start pi).trace,
        1 ≤ s.lineNumber ∧ s.lineNumber ≤ (splitNl code.toList).length) ∧
    (getExecutionTrace "for i in range(1):\n  x = 5\n  y = x" [] 0 none).trace.map
      (fun s => s.lineNumber) = [1, 1, 2, 3] := by
  constructor
  · intro code σ start pi
    obtain ⟨h1, h2, h3, h4⟩ := runFuel_inv (sufficientFuel (splitNl code.toList))
      (splitNl code.toList) (applyProvided σ pi) start
    exact h2
  · with_unfolding_all rfl

lemma digit_char_facts {c : Char} (h : c.isDigit = true) :
    c.isWhitespace = false ∧ isAddSub c = false ∧ isMulDiv c = false ∧
    isQuoteChar c = false := by
  refine ⟨?_, ?_, ?_, ?_⟩
  · cases hw : c.isWhitespace
    · rfl
    · exfalso
      simp [Char.isWhitespace] at hw
      rcases hw with ((rfl | rfl) | rfl) | rfl <;> exact absurd h (by decide)
  · cases hw : isAddSub c
    · rfl
    · exfalso
      simp [isAddSub] at hw
      rcases hw with rfl | rfl <;> exact absurd h (by decide)
  · cases hw : isMulDiv c
    · rfl
    · exfalso
      simp [isMulDiv] at hw
      rcases hw with rfl | rfl <;> exact absurd h (by decide)
  · cases hw : isQuoteChar c
    · rfl
    · exfalso
      simp [isQuoteChar, sqc] at hw
      rcases hw with rfl | rfl <;> exact absurd h (by decide)

lemma dropWhile_eq_self_of_head {p : Char → Bool} {l : List Char}
    (h : ∀ c, l.head? = some c → p c = false) : l.dropWhile p = l := by
  cases l with
  | nil => rfl
  | cons c r => simp [List.dropWhile, h c rfl]

lemma trimChars_all {l : List Char} (h : ∀ c ∈ l, c.isWhitespace = false) :
    trimChars l = l := by
  unfold trimChars
  rw [dropWhile_eq_self_of_head (fun c hc => h c (List.mem_of_mem_head? hc)),
    dropWhile_eq_self_of_head
      (fun c hc => h c (List.mem_reverse.mp (List.mem_of_mem_head? hc))),
    List.reverse_reverse]

lemma findOpAux_skip {isOp : Char → Bool} {l : List Char}
    (h : ∀ c ∈ l, isQuoteChar c = false ∧ isOp c = false) :
    ∀ (b : Bool) (r : List Char), findOpAux isOp b (l ++ r) = findOpAux isOp b r := by
  induction l with
  | nil => intro b r; rfl
  | cons c cs ih =>
      intro b r
      obtain ⟨hq, ho⟩ := h c (List.mem_cons_self c cs)
      simp only [List.cons_append, findOpAux, hq, ho, Bool.and_false, if_neg]
      exact ih (fun c hc => h c (List.mem_cons_of_mem _ hc)) b r

lemma evalFuel_nil (f : Nat) (σ : Scope) :
    evalFuel (f + 1) [] σ = (Except.ok (Value.num 0), σ) := rfl

lemma findOp_all_skip {isOp : Char → Bool} {l : List Char}
    (h : ∀ c ∈ l, isQuoteChar c = false ∧ isOp c = false) :
    findOp isOp l = none := by
  unfold findOp
  rw [← List.append_nil l.reverse,
    findOpAux_skip (fun c hc => h c (List.mem_reverse.mp hc))]
  rfl

lemma evalFuel_digits (f : Nat) (ds : List Char) (σ : Scope) (q : ℚ)
    (hdig : ∀ c ∈ ds, c.isDigit = true) (hq : jsNumber? ds = some q) :
    evalFuel (f + 1) ds σ = (Except.ok (Value.num q), σ) := by
  have hfacts := fun c hc => digit_char_facts (hdig c hc)
  have htrim : trimChars ds = ds := trimChars_all (fun c hc => (hfacts c hc).1)
  have hf1 : findOp isAddSub ds = none :=
    findOp_all_skip (fun c hc => ⟨(hfacts c hc).2.2.2, (hfacts c hc).2.1⟩)
  have hf2 : findOp isMulDiv ds = none :=
    findOp_all_skip (fun c hc => ⟨(hfacts c hc).2.2.2, (hfacts c hc).2.2.1⟩)
  have hstr : ¬((ds.head? = some '"' ∧ ds.getLast? = some '"') ∨
      (ds.head? = some sqc ∧ ds.getLast? = some sqc)) := by
    rintro (⟨h1, _⟩ | ⟨h1, _⟩)
    · exact absurd (hdig _ (List.mem_of_mem_head? h1)) (by decide)
    · exact absurd (hdig _ (List.mem_of_mem_head? h1)) (by decide)
  simp only [evalFuel, htrim, hf1, hf2, hq, if_neg hstr]

/-- C10: Empty operand evaluates to zero (implicit): the evaluator treats
an empty (all-whitespace) operand as the numeric literal 0, so a leading
minus on a digit string evaluates to the negation of its value (the empty
left substring of the top-level `-` contributing 0) rather than failing,
and the statement `print()` succeeds and records the output string `"0"`. -/
theorem c10_empty_operand_zero :
    (∀ (ds : List Char) (σ : Scope) (q : ℚ), (∀ c ∈ ds, c.isDigit = true) →
      jsNumber? ds = some q →
      evalExprS ('-' :: ds) σ = (Except.ok (Value.num (-q)), σ)) ∧
    getExecutionTrace "print()" [] 0 none
      = ⟨[⟨1, "Printing output", [], some "0", false, false, none⟩], none⟩ := by
  constructor
  · intro ds σ q hdig hq
    have hfacts := fun c hc => digit_char_facts (hdig c hc)
    have hnws : ∀ c ∈ ('-' :: ds), c.isWhitespace = false := by
      rintro c hc
      rcases List.mem_cons.mp hc with rfl | hc2
      · decide
      · exact (hfacts c hc2).1
    have htrim : trimChars ('-' :: ds) = '-' :: ds := trimChars_all hnws
    have hfind1 : findOp isAddSub ('-' :: ds) = some 0 := by
      unfold findOp
      rw [show ('-' :: ds).reverse = ds.reverse ++ ['-'] by simp,
        findOpAux_skip (fun c hc =>
          ⟨(hfacts c (List.mem_reverse.mp hc)).2.2.2,
           (hfacts c (List.mem_reverse.mp hc)).2.1⟩)]
      rfl
    have hlen : ('-' :: ds).length + 1 = ds.length + 1 + 1 := by simp
    have hleft : evalFuel (ds.length + 1) (('-' :: ds).take 0) σ
        = (Except.ok (Value.num 0), σ) := by
      rw [List.take_zero]
      exact evalFuel_nil ds.length σ
    have hright : evalFuel (ds.length + 1) (('-' :: ds).drop 1) σ
        = (Except.ok (Value.num q), σ) := by
      rw [List.drop_one, List.tail_cons]
      exact evalFuel_digits ds.length ds σ q hdig hq
    show evalFuel (('-' :: ds).length + 1) ('-' :: ds) σ = _
    rw [hlen]
    generalize hF : ds.length + 1 = F
    rw [hF] at hleft hright
    simp only [evalFuel, htrim, hfind1, hleft, hright]
    norm_num
    intro hc
    exact absurd hc (by decide)
  · with_unfolding_all rfl

/-- C10 witness: the digit string `"7"` — `-7` evaluates to the number
−7 on the empty scope. -/
theorem c10_witness :
    evalExprS ('-' :: ['7']) [] = (Except.ok (Value.num (-7)), []) := by
  have h := c10_empty_operand_zero.1 ['7'] [] 7 (by decide) (by with_unfolding_all rfl)
  simpa using h

lemma wordChar_facts {c : Char} (h : isWordChar c = true) :
    c.isWhitespace = false ∧ c ≠ '=' ∧ c ≠ '\n' := by
  refine ⟨?_, ?_, ?_⟩
  · cases hw : c.isWhitespace
    · rfl
    · exfalso
      simp [Char.isWhitespace] at hw
      rcases hw with ((rfl | rfl) | rfl) | rfl <;> exact absurd h (by decide)
  · rintro rfl; exact absurd h (by decide)
  · rintro rfl; exact absurd h (by decide)

lemma takeWhile_all_append {p : Char → Bool} {l r : List Char}
    (hl : ∀ c ∈ l, p c = true) (hr : ∀ c, r.head? = some c → p c = false) :
    (l ++ r).takeWhile p = l ∧ (l ++ r).dropWhile p = r := by
  induction l with
  | nil =>
      simp only [List.nil_append]
      cases r with
      | nil => exact ⟨rfl, rfl⟩
      | cons c cs => simp [List.takeWhile, List.dropWhile, hr c rfl]
  | cons c cs ih =>
      have hc := hl c (List.mem_cons_self c cs)
      obtain ⟨ih1, ih2⟩ := ih (fun x hx => hl x (List.mem_cons_of_mem _ hx))
      simp [List.takeWhile, List.dropWhile, hc, ih1, ih2]

lemma dropLit_refl (lit r : List Char) : dropLit lit (lit ++ r) = some r := by
  induction lit with
  | nil => rfl
  | cons c cs ih => simp [dropLit, ih]

lemma splitNl_eq_single {l : List Char} (h : '\n' ∉ l) : splitNl l = [l] := by
  induction l with
  | nil => rfl
  | cons c r ih =>
      have hc : ¬(c = '\n') := fun hcc => h (hcc ▸ List.mem_cons_self c r)
      have hr := ih (fun hm => h (List.mem_cons_of_mem _ hm))
      simp [splitNl, hc, hr]

lemma runFuel_nil_lines (f : Nat) (σ : Scope) (i : Nat) :
    runFuel f [] σ i = ⟨[], none⟩ := by
  cases f <;> rfl

lemma runIters_empty_sub (sub : Scope → ExecutorResponse)
    (hsub : ∀ σ0, sub σ0 = ⟨[], none⟩) (bodyIdx : List Nat) (lv : String) (hln : Nat) :
    ∀ (r k : Nat) (σ : Scope),
      (runIters sub bodyIdx lv hln k r σ).2.2 = none ∧
      (runIters sub bodyIdx lv hln k r σ).1.length = r := by
  intro r
  induction r with
  | zero => intro k σ; exact ⟨rfl, rfl⟩
  | succ n ih =>
      intro k σ
      obtain ⟨ih1, ih2⟩ := ih (k + 1) (Scope.set σ lv (Value.num k))
      simp only [runIters, hsub]
      simp only [lastVars, List.getLast?_nil, List.map_nil]
      rcases hrec : runIters sub bodyIdx lv hln (k + 1) n (Scope.set σ lv (Value.num k))
        with ⟨rest, σ3, err⟩
      rw [hrec] at ih1 ih2
      simp only at ih1 ih2
      subst ih1
      refine ⟨rfl, ?_⟩
      simp [ih2]

/-- The canonical trimmed for-header line `for v in range(w):` with single
spaces, as a character list. -/
def mkForLine (v w : List Char) : List Char :=
  'f' :: 'o' :: 'r' :: ' ' ::
    (v ++ (' ' :: 'i' :: 'n' :: ' ' ::
      ('r' :: 'a' :: 'n' :: 'g' :: 'e' :: '(' :: (w ++ [')', ':']))))

lemma trimChars_of_ends {a b : Char} (m : List Char) (ha : a.isWhitespace = false)
    (hb : b.isWhitespace = false) : trimChars (a :: (m ++ [b])) = a :: (m ++ [b]) := by
  have h1 : List.dropWhile Char.isWhitespace (a :: (m ++ [b])) = a :: (m ++ [b]) :=
    dropWhile_eq_self_of_head (fun c hc => by
      simp only [List.head?_cons] at hc; cases hc; exact ha)
  have h2 : List.dropWhile Char.isWhitespace (b :: (m.reverse ++ [a]))
      = b :: (m.reverse ++ [a]) :=
    dropWhile_eq_self_of_head (fun c hc => by
      simp only [List.head?_cons] at hc; cases hc; exact hb)
  have h3 : (a :: (m ++ [b])).reverse = b :: (m.reverse ++ [a]) := by simp
  unfold trimChars
  rw [h1, h3, h2, ← h3, List.reverse_reverse]

lemma mkForLine_trim (v w : List Char) :
    trimChars (mkForLine v w) = mkForLine v w := by
  have h : mkForLine v w = 'f' :: (('o' :: 'r' :: ' ' ::
      (v ++ (' ' :: 'i' :: 'n' :: ' ' ::
        ('r' :: 'a' :: 'n' :: 'g' :: 'e' :: '(' :: (w ++ [')']))))) ++ [':']) := by
    simp [mkForLine]
  rw [h, trimChars_of_ends _ (by decide) (by decide)]

lemma takeWhile_ws_single {r : List Char}
    (hr : ∀ x, r.head? = some x → x.isWhitespace = false) :
    (' ' :: r).takeWhile Char.isWhitespace = [' '] ∧
    (' ' :: r).dropWhile Char.isWhitespace = r := by
  have := takeWhile_all_append (p := Char.isWhitespace) (l := [' ']) (r := r)
    (by intro x hx; simp at hx; rw [hx]; decide) hr
  simpa using this

lemma mkForLine_parseFor {v w : List Char} (hvne : v ≠ []) (hwne : w ≠ [])
    (hv : ∀ c ∈ v, isWordChar c = true) (hw : ∀ c ∈ w, isWordChar c = true) :
    parseFor (mkForLine v w) = some (v, w) := by
  have hvhead : ∀ c, (v ++ (' ' :: 'i' :: 'n' :: ' ' ::
      ('r' :: 'a' :: 'n' :: 'g' :: 'e' :: '(' :: (w ++ [')', ':'])))).head? = some c →
      Char.isWhitespace c = false := by
    intro c hc
    cases v with
    | nil => exact absurd rfl hvne
    | cons a as =>
        simp only [List.cons_append, List.head?_cons] at hc
        cases hc
        exact (wordChar_facts (hv c (List.mem_cons_self c as))).1
  have e1 : dropLit "for".toList (mkForLine v w)
      = some (' ' :: (v ++ (' ' :: 'i' :: 'n' :: ' ' ::
        ('r' :: 'a' :: 'n' :: 'g' :: 'e' :: '(' :: (w ++ [')', ':']))))) :=
    dropLit_refl "for".toList _
  have e2 := takeWhile_ws_single hvhead
  have e3 := takeWhile_all_append (p := isWordChar)
    (l := v) (r := ' ' :: 'i' :: 'n' :: ' ' ::
      ('r' :: 'a' :: 'n' :: 'g' :: 'e' :: '(' :: (w ++ [')', ':'])))
    hv (by intro c hc; simp only [List.head?_cons] at hc; cases hc; decide)
  have e4 := takeWhile_ws_single (r := 'i' :: 'n' :: ' ' ::
      ('r' :: 'a' :: 'n' :: 'g' :: 'e' :: '(' :: (w ++ [')', ':'])))
    (by intro c hc; simp only [List.head?_cons] at hc; cases hc; decide)
  have e5 : dropLit "in".toList ('i' :: 'n' :: ' ' ::
      ('r' :: 'a' :: 'n' :: 'g' :: 'e' :: '(' :: (w ++ [')', ':'])))
      = some (' ' :: ('r' :: 'a' :: 'n' :: 'g' :: 'e' :: '(' :: (w ++ [')', ':']))) :=
    dropLit_refl "in".toList _
  have e6 := takeWhile_ws_single (r := 'r' :: 'a' :: 'n' :: 'g' :: 'e' :: '(' ::
      (w ++ [')', ':']))
    (by intro c hc; simp only [List.head?_cons] at hc; cases hc; decide)
  have e7 : dropLit "range(".toList
      ('r' :: 'a' :: 'n' :: 'g' :: 'e' :: '(' :: (w ++ [')', ':'])) = some (w ++ [')', ':']) :=
    dropLit_refl "range(".toList _
  have e8 := takeWhile_all_append (p := isWordChar) (l := w) (r := [')', ':'])
    hw (by intro c hc; simp only [List.head?_cons] at hc; cases hc; decide)
  simp only [parseFor, e1, e2.1, e2.2, e3.1, e3.2, e4.1, e4.2, e5, e6.1, e6.2, e7,
    e8.1, e8.2, if_neg hvne, if_neg hwne]
  simp

lemma mkForLine_parseAssign {v w : List Char} (hvne : v ≠ [])
    (hv : ∀ c ∈ v, isWordChar c = true) :
    parseAssign (mkForLine v w) = none := by
  have hvhead : ∀ c, (v ++ (' ' :: 'i' :: 'n' :: ' ' ::
      ('r' :: 'a' :: 'n' :: 'g' :: 'e' :: '(' :: (w ++ [')', ':'])))).head? = some c →
      Char.isWhitespace c = false := by
    intro c hc
    cases v with
    | nil => exact absurd rfl hvne
    | cons a as =>
        simp only [List.cons_append, List.head?_cons] at hc
        cases hc
        exact (wordChar_facts (hv c (List.mem_cons_self c as))).1
  have e1 := takeWhile_all_append (p := isWordChar) (l := ['f', 'o', 'r'])
    (r := ' ' :: (v ++ (' ' :: 'i' :: 'n' :: ' ' ::
      ('r' :: 'a' :: 'n' :: 'g' :: 'e' :: '(' :: (w ++ [')', ':'])))))
    (by intro c hc; fin_cases hc <;> decide)
    (by intro c hc; simp only [List.head?_cons] at hc; cases hc; decide)
  have e2 := takeWhile_ws_single hvhead
  simp only [parseAssign,
    show mkForLine v w = ['f', 'o', 'r'] ++ (' ' :: (v ++ (' ' :: 'i' :: 'n' :: ' ' ::
      ('r' :: 'a' :: 'n' :: 'g' :: 'e' :: '(' :: (w ++ [')', ':']))))) from rfl,
    e1.1, e1.2, e2.2]
  simp only [if_neg (by simp : ¬(['f', 'o', 'r'] : List Char) = [])]
  cases v with
  | nil => exact absurd rfl hvne
  | cons c cs =>
      have hcne : c ≠ '=' := (wordChar_facts (hv c (List.mem_cons_self c cs))).2.1
      simp only [List.cons_append]
      split
      · rename_i r3 heq
        injection heq with h1 h2
        exact absurd h1 hcne
      · rfl

lemma mkForLine_classify {v w : List Char} (hvne : v ≠ []) (hwne : w ≠ [])
    (hv : ∀ c ∈ v, isWordChar c = true) (hw : ∀ c ∈ w, isWordChar c = true) :
    classify (mkForLine v w) = Stmt.forRange v w := by
  simp only [classify, parseInputAssign, mkForLine_parseAssign hvne hv,
    mkForLine_parseFor hvne hwne hv hw]

/-- C8 (amended): the for-header recogniser accepts exactly a single word
token (letters, digits, underscores — the regex capture is `\w+`) as the
range limit, not arbitrary expressions.  For every loop variable `v`, word
token `w` and scope, running the one-line program `for v in range(w):`
evaluates `w` against the scope; an evaluation failure terminates the
invocation with that error, a non-numeric value terminates it with a
`TypeError`, and a numeric value `q` runs the loop with `⌈q⌉⁺` iterations
(zero iterations, and no error, when the count is not positive). -/
theorem c8_amended :
    ∀ (v w : List Char) (σ : Scope),
      v ≠ [] → w ≠ [] → (∀ c ∈ v, isWordChar c = true) →
      (∀ c ∈ w, isWordChar c = true) →
      (∀ m, (evalExprS w σ).1 = Except.error m →
        getExecutionTrace (String.mk (mkForLine v w)) σ 0 none
          = ⟨[⟨1, m, σ, none, true, false, none⟩], some m⟩) ∧
      (∀ s0, (evalExprS w σ).1 = Except.ok (Value.str s0) →
        getExecutionTrace (String.mk (mkForLine v w)) σ 0 none
          = ⟨[⟨1, "TypeError: " ++ squote ++ String.mk w ++ squote ++
                " does not evaluate to an integer", σ, none, true, false, none⟩],
              some ("TypeError: " ++ squote ++ String.mk w ++ squote ++
                " does not evaluate to an integer")⟩) ∧
      (∀ q, (evalExprS w σ).1 = Except.ok (Value.num q) →
        (getExecutionTrace (String.mk (mkForLine v w)) σ 0 none).error = none ∧
        (getExecutionTrace (String.mk (mkForLine v w)) σ 0 none).trace.length
          = 1 + (Rat.ceil q).toNat) := by
  intro v w σ hvne hwne hv hw
  have hvn : '\n' ∉ v := fun hm => absurd (hv _ hm) (by decide)
  have hwn : '\n' ∉ w := fun hm => absurd (hw _ hm) (by decide)
  have hnl : '\n' ∉ mkForLine v w := by
    intro hmem
    simp only [mkForLine, List.mem_cons, List.mem_append, List.mem_singleton,
      List.not_mem_nil, or_false] at hmem
    rcases hmem with h|h|h|h|h|h|h|h|h|h|h|h|h|h|h|h|h|h <;>
      first
        | exact absurd h (by decide)
        | exact hvn h
        | exact hwn h
  have hrun : getExecutionTrace (String.mk (mkForLine v w)) σ 0 none
      = runFuel 8 [mkForLine v w] σ 0 := by
    show runFuel (sufficientFuel (splitNl (String.mk (mkForLine v w)).toList))
        (splitNl (String.mk (mkForLine v w)).toList) (applyProvided σ none) 0 = _
    rw [show (String.mk (mkForLine v w)).toList = mkForLine v w from rfl,
      splitNl_eq_single hnl]
    rfl
  have htrim := mkForLine_trim v w
  have hcl := mkForLine_classify hvne hwne hv hw
  have hblank : ¬(mkForLine v w = [] ∨ (mkForLine v w).head? = some '#') := by
    rintro (h | h)
    · exact absurd h (by simp [mkForLine])
    · rw [show (mkForLine v w).head? = some 'f' from rfl] at h
      injection h with h2
      exact absurd h2 (by decide)
  have hsc := evalExprS_scope w σ
  rcases hev : evalExprS w σ with ⟨res, σp⟩
  rw [hev] at hsc
  simp only at hsc
  have hev2 : evalExprS w σ = (res, σ) := by rw [hev, hsc]
  have hkey : runFuel 8 [mkForLine v w] σ 0
      = (match res with
         | Except.error m =>
             failSteps [⟨1, "Executing line: " ++ String.mk (mkForLine v w), σ, none,
               false, false, none⟩] σ 1 m
         | Except.ok (Value.str _) =>
             failSteps [⟨1, "Executing line: " ++ String.mk (mkForLine v w), σ, none,
               false, false, none⟩] σ 1
               ("TypeError: " ++ squote ++ String.mk w ++ squote ++
                 " does not evaluate to an integer")
         | Except.ok (Value.num q) =>
             (match (runIters (fun σ2 => runFuel 7 [] σ2 0) [] (String.mk v) 1 0
                 ((Rat.ceil q).toNat) σ).2.2 with
              | some m =>
                  failSteps
                    ({ lineNumber := 1,
                       description := "Starting a loop that will run " ++
                         jsNumToString q ++ " times.",
                       «variables» := σ, output := none, isError := false,
                       requiresInput := false, inputVariable := none } ::
                      (runIters (fun σ2 => runFuel 7 [] σ2 0) [] (String.mk v) 1 0
                        ((Rat.ceil q).toNat) σ).1)
                    (runIters (fun σ2 => runFuel 7 [] σ2 0) [] (String.mk v) 1 0
                      ((Rat.ceil q).toNat) σ).2.1 1 m
              | none =>
                  ⟨{ lineNumber := 1,
                     description := "Starting a loop that will run " ++
                       jsNumToString q ++ " times.",
                     «variables» := σ, output := none, isError := false,
                     requiresInput := false, inputVariable := none } ::
                    (runIters (fun σ2 => runFuel 7 [] σ2 0) [] (String.mk v) 1 0
                      ((Rat.ceil q).toNat) σ).1 ++
                    (runFuel 7 [mkForLine v w]
                      (runIters (fun σ2 => runFuel 7 [] σ2 0) [] (String.mk v) 1 0
                        ((Rat.ceil q).toNat) σ).2.1 1).trace,
                   (runFuel 7 [mkForLine v w]
                      (runIters (fun σ2 => runFuel 7 [] σ2 0) [] (String.mk v) 1 0
                        ((Rat.ceil q).toNat) σ).2.1 1).error⟩)) := by
    rw [show (8 : Nat) = 7 + 1 from rfl]
    generalize (7 : Nat) = F
    simp only [runFuel]
    rw [show (([mkForLine v w] : List (List Char)).get? 0) = some (mkForLine v w) from rfl]
    dsimp only
    simp only [htrim]
    rw [if_neg hblank]
    simp only [hcl]
    split
    · rename_i m σp2 heq
      rw [hev2] at heq
      injection heq with h1 h2
      subst h1
      subst h2
      rfl
    · rename_i val σp2 heq
      rw [hev2] at heq
      injection heq with h1 h2
      subst h1
      subst h2
      cases val with
      | str s0 => rfl
      | num q => rfl
  refine ⟨?_, ?_, ?_⟩
  · intro m hm
    simp only at hm
    subst hm
    rw [hrun, hkey]
    simp [failSteps, lastVars]
  · intro s0 hm
    simp only at hm
    subst hm
    rw [hrun, hkey]
    simp [failSteps, lastVars]
  · intro q hm
    simp only at hm
    subst hm
    rw [hrun, hkey]
    dsimp only
    obtain ⟨hN, hL⟩ := runIters_empty_sub (fun σ2 => runFuel 7 [] σ2 0)
      (fun σ0 => runFuel_nil_lines 7 σ0 0) [] (String.mk v) 1 ((Rat.ceil q).toNat) 0 σ
    rcases hit : runIters (fun σ2 => runFuel 7 [] σ2 0) [] (String.mk v) 1 0
      ((Rat.ceil q).toNat) σ with ⟨delta, σ2, errOpt⟩
    rw [hit] at hN hL
    simp only at hN hL
    subst hN
    dsimp only
    have hcont : runFuel 7 [mkForLine v w] σ2 1 = ⟨[], none⟩ := by
      rw [show (7 : Nat) = 6 + 1 from rfl]
      generalize (6 : Nat) = F2
      simp only [runFuel]
      rfl
    rw [hcont]
    refine ⟨rfl, ?_⟩
    simp only [List.length_cons, List.length_append, List.length_nil, hL]
    omega

/-- C8 witness: with loop variable `i`, limit token `3` and the empty
scope, the limit evaluates to the number 3 and the single-line loop
program completes without error with `1 + 3` trace steps. -/
theorem c8_witness :
    (getExecutionTrace (String.mk (mkForLine "i".toList "3".toList)) [] 0 none).error
      = none ∧
    (getExecutionTrace (String.mk (mkForLine "i".toList "3".toList)) [] 0 none).trace.length
      = 1 + (Rat.ceil (3 : ℚ)).toNat :=
  (c8_amended "i".toList "3".toList [] (by decide) (by decide) (by decide)
    (by decide)).2.2 3 (by with_unfolding_all rfl)

/-- C8 counterexample: the header `for i in range(n + 1):` — whose limit
is an arithmetic expression, not a single word token — is not recognised
as a loop header (the regex capture for the limit is `\w+`): with `n`
bound to 1 the line falls through every statement pattern and the
invocation fails with a `SyntaxError` instead of running a 2-iteration
loop, refuting the claim that any evaluator-supported limit expression is
accepted. -/
theorem c8_counterexample :
    (getExecutionTrace "for i in range(n + 1):" [("n", Value.num 1)] 0 none).error
      = some "SyntaxError: invalid or unsupported syntax" ∧
    (getExecutionTrace "for i in range(n + 1):" [("n", Value.num 1)] 0 none).trace.length
      = 1 :=
  ⟨by with_unfolding_all rfl, by with_unfolding_all rfl⟩
